import Mathlib

/-!
Verification of the navigation-graph builder and A* pathfinder of the
ink-and-iron repository (the `pathfinding` crate and the main crate's
`pathfinding.rs` module), plus the height normalization of the external
`world_generation` crate.

Embedding conventions:
* `CellId(usize)` is embedded as `ℕ`.
* `f32` scalars (positions, heights, edge weights) are embedded by a scalar
  type `R` carrying a `LinearOrderedCommRing` structure, with exact
  arithmetic: the operations the code performs on the non-NaN, non-overflow
  values it produces are addition, subtraction, absolute value and `total_cmp`
  comparisons, all of which the class provides.  Every theorem is proved for
  every such `R` — in particular for `ℝ`, the exact model of the `f32`
  values — while concrete witnesses instantiate `R := ℤ`, which the kernel
  can evaluate.
* `glam`'s Euclidean distance functions (`Vec3::distance`, `Vec2::distance`)
  return square roots, which exact arithmetic cannot produce from the
  coordinates; they are passed to the embedded functions as explicit
  arguments `dist3` / `dist2`.  Every theorem is proved for every such
  function, in particular for the Euclidean one; concrete witnesses supply
  functions that agree with the Euclidean distance on the (Pythagorean)
  inputs they use.
* The IEEE-754 comparison `height / length < 0.3` of `get_graph` is embedded
  by `slopeLtThreshold` without a division: for the nonnegative operands the
  code produces, `length > 0` gives `height / length < 0.3 ↔ 10·height <
  3·length`, and for `length = 0` the IEEE quotient is `+∞` (or NaN when
  `height = 0`), which compares false against `0.3`, matching the
  `0 < length` conjunct.
* `petgraph`'s `Graph` plus the `CellId → NodeIndex` map built alongside it
  by `get_graph` are fused into `NavGraph`, which records edges directly on
  `CellId`s: the map is a bijection between cell ids and node indices set up
  by `get_graph`, so `graph.edges_connecting(nodes[a], nodes[b]).first()`
  becomes `edgeWeight`.
* The `WorldMap` interface of the `world_generation` crate (not under this
  repository's `src/`) is modelled from the spec: the spatial adjacency
  provider exposes cell enumeration, per-cell positions and per-cell
  neighbour lists.
-/

/-- Modelled from the spec: the `world_generation::WorldMap` spatial interface
(`iter_cells`, `get_position_for_cell`, `get_neighbours`) consumed by the
`pathfinding` crate; the `world_generation` crate is not under `src/`.
Positions are 3D, with the second coordinate (`y`) the height, as in the
source's `glam::Vec3` usage (`c_pos.y` is the height, `.xz()` the horizontal
projection). -/
structure WorldMap (R : Type) where
  cells : List ℕ
  pos : ℕ → R × R × R
  neighbours : ℕ → List ℕ

/-- The height (`y`) coordinate of a 3D position, as in `c_pos.y`. -/
def heightOf {R : Type} (p : R × R × R) : R := p.2.1

/-- The horizontal (`xz`) projection of a 3D position, as in `c_pos.xz()`. -/
def xzOf {R : Type} (p : R × R × R) : R × R := (p.1, p.2.2)

/-- `Vec2::extend(h)`: append a third coordinate. -/
def extendP {R : Type} (p : R × R) (h : R) : R × R × R := (p.1, p.2, h)

/-- Embeds the `f32` test `height / length < 0.3` of `get_graph` for the
nonnegative operands the code produces.  For `length > 0` the test is
equivalent to `10·height < 3·length`; for `length = 0` the IEEE quotient is
`+∞` (when `height > 0`) or NaN (when `height = 0`), and both compare false
against `0.3`, matching the `0 < length` conjunct. -/
def slopeLtThreshold {R : Type} [LinearOrderedCommRing R] (height length : R) :
    Bool :=
  decide (0 < length) && decide (10 * height < 3 * length)

/-- The navigation graph: the `petgraph::Graph<CellId, f32>` together with the
`HashMap<CellId, NodeIndex>` built by `get_graph`, with the `NodeIndex`
indirection resolved so that edges are recorded on cell ids.  Edges are
directed, as in `petgraph::Graph` (the builder inserts both directions). -/
structure NavGraph (R : Type) where
  nodes : List ℕ
  edges : List (ℕ × ℕ × R)

/-- `get_graph` of the `pathfinding` crate (src/pathfinding/src/lib.rs):
one node per world-map cell; for every cell `c` and every neighbour `n`,
with `length = c_pos.distance(n_pos)` (the full 3D distance) and
`height = |c_pos.y - n_pos.y|`, the edge `c → n` with weight
`c_pos.distance(n_pos)` is added when `height / length < 0.3`.
The iteration order over the `nodes` HashMap is arbitrary in the source;
we iterate in `cells` order, which leaves the edge set unchanged. -/
def get_graph {R : Type} [LinearOrderedCommRing R] (wm : WorldMap R)
    (dist3 : R × R × R → R × R × R → R) : NavGraph R where
  nodes := wm.cells
  edges :=
    wm.cells.flatMap fun c =>
      (wm.neighbours c).filterMap fun n =>
        if slopeLtThreshold |heightOf (wm.pos c) - heightOf (wm.pos n)|
            (dist3 (wm.pos c) (wm.pos n)) then
          some (c, n, dist3 (wm.pos c) (wm.pos n))
        else none

/-- `get_graph` of the main crate (src/src/pathfinding.rs): positions are the
2D voronoi site positions and heights come from a separate `CellId → f32`
map; `length = c_pos.distance(n_pos)` is the horizontal distance,
`height = |c_height - n_height|`, and the admitted edge's weight is the 3D
distance `c_pos.extend(c_height).distance(n_pos.extend(n_height))`. -/
def get_graph2 {R : Type} [LinearOrderedCommRing R] (cells : List ℕ)
    (pos2 : ℕ → R × R) (heights : ℕ → R) (nb : ℕ → List ℕ)
    (dist2 : R × R → R × R → R) (dist3 : R × R × R → R × R × R → R) :
    NavGraph R where
  nodes := cells
  edges :=
    cells.flatMap fun c =>
      (nb c).filterMap fun n =>
        if slopeLtThreshold |heights c - heights n| (dist2 (pos2 c) (pos2 n)) then
          some (c, n,
            dist3 (extendP (pos2 c) (heights c)) (extendP (pos2 n) (heights n)))
        else none

/-- `graph.edges_connecting(nodes[a], nodes[b]).collect().first()` of `a_star`:
the first recorded edge `a → b`, if any, with its weight. -/
def edgeWeight {R : Type} (G : NavGraph R) (a b : ℕ) : Option R :=
  (G.edges.find? fun e => a == e.1 && b == e.2.1).map fun e => e.2.2

/-- The `AStarNode` struct of the source: cell id, cost-so-far `g`, heuristic
`h`, and the `Option<Box<AStarNode>>` parent chain used by
`reconstruct_path`.  The `Option` parent is inlined into the two
constructors (`root` for `parent: None`, `child` for `parent: Some(_)`). -/
inductive AStarNode (R : Type) : Type where
  | root (cell_id : ℕ) (g : R) (h : R)
  | child (cell_id : ℕ) (g : R) (h : R) (parent : AStarNode R)
deriving DecidableEq

/-- The `cell_id` field. -/
def AStarNode.cell_id {R : Type} : AStarNode R → ℕ
  | .root c _ _ => c
  | .child c _ _ _ => c

/-- The `g` field. -/
def AStarNode.g {R : Type} : AStarNode R → R
  | .root _ g _ => g
  | .child _ g _ _ => g

/-- The `h` field. -/
def AStarNode.h {R : Type} : AStarNode R → R
  | .root _ _ h => h
  | .child _ _ h _ => h

/-- The `parent` field, as the source's `Option`. -/
def AStarNode.parent {R : Type} : AStarNode R → Option (AStarNode R)
  | .root _ _ _ => none
  | .child _ _ _ p => some p

/-- `fn f(&self) -> f32 { self.g + self.h }`. -/
def AStarNode.f {R : Type} [Add R] (n : AStarNode R) : R := n.g + n.h

/-- `open_list.iter().min_by(|a, b| a.f().total_cmp(&b.f()))`: Rust's
`Iterator::min_by` returns the first element attaining the minimum, which
this recursion reproduces (on a tie the earlier element is kept). -/
def minByF {R : Type} [LinearOrderedCommRing R] :
    List (AStarNode R) → Option (AStarNode R)
  | [] => none
  | x :: xs =>
    match minByF xs with
    | none => some x
    | some m => if m.f < x.f then some m else some x

/-- `reconstruct_path`: walk the parent chain from the given node, collecting
cell ids; the source's `path.reverse()` is commented out, so the list starts
at the given (goal) node and ends at the parentless (start) node. -/
def reconstruct_path {R : Type} : AStarNode R → List ℕ
  | .root c _ _ => [c]
  | .child c _ _ p => c :: reconstruct_path p

/-- The body of the `for n_cell_id in world_map.get_neighbours(...)` loop of
`a_star`, processing one neighbour `n_id` against the open list `ol`:
skip if `n_id` is on the closed list; look up the first edge
`current → n_id`; if `n_id` is already on the open list, the source compares
`tent_g >= neighbor.g` and `continue`s, and otherwise falls through doing
nothing — both branches leave the open list unchanged (the relaxation the
comparison was written for is absent); an unseen neighbour is pushed with
parent `current`. -/
def processNeighbour {R : Type} [LinearOrderedCommRing R]
    (eW : ℕ → ℕ → Option R) (hfun : ℕ → R) (closedL : List (AStarNode R))
    (current : AStarNode R) (ol : List (AStarNode R)) (n_id : ℕ) :
    List (AStarNode R) :=
  if closedL.any fun n => n.cell_id == n_id then ol
  else
    match eW current.cell_id n_id with
    | none => ol
    | some w =>
      let tent_g := current.g + w
      match ol.find? fun n => n.cell_id == n_id with
      | some nbr => if tent_g ≥ nbr.g then ol else ol
      | none => ol ++ [AStarNode.child n_id tent_g (hfun n_id) current]

/-- The `while !open_list.is_empty()` loop of `a_star`, with explicit fuel.
Each iteration pops the open node with minimal `f` (the first minimum, as
`min_by`), returns the reconstructed path if it is the goal, and otherwise
moves it to the closed list and processes its neighbours in order.
An overall result of `none` means the fuel ran out — shown below never to
happen for the fuel `a_star` supplies — while `some none` is the source's
`None` (open list empty). -/
def a_starLoop {R : Type} [LinearOrderedCommRing R] (nb : ℕ → List ℕ)
    (eW : ℕ → ℕ → Option R) (hfun : ℕ → R) (goal : ℕ) :
    ℕ → List (AStarNode R) → List (AStarNode R) → Option (Option (List ℕ))
  | 0, _, _ => none
  | fuel + 1, openL, closedL =>
    match minByF openL with
    | none => some none
    | some current =>
      if current.cell_id = goal then some (some (reconstruct_path current))
      else
        a_starLoop nb eW hfun goal fuel
          ((nb current.cell_id).foldl
            (processNeighbour eW hfun (closedL ++ [current]) current)
            (openL.filter fun n => n.cell_id != current.cell_id))
          (closedL ++ [current])

/-- `a_star` of the `pathfinding` crate: the open list starts with the start
node at `g = 0` and `h` the horizontal (`xz`-projection) distance to the
goal, and the loop runs until it returns.  The fuel `G.edges.length + 2` is
proved sufficient below, so the `none` (out of fuel) fallback never fires.
`dist2` abstracts `glam`'s `Vec2::distance` used by `heuristic`. -/
def a_star {R : Type} [LinearOrderedCommRing R] (start goal : ℕ)
    (G : NavGraph R) (wm : WorldMap R) (dist2 : R × R → R × R → R) :
    Option (List ℕ) :=
  (a_starLoop wm.neighbours (edgeWeight G)
    (fun c => dist2 (xzOf (wm.pos c)) (xzOf (wm.pos goal))) goal
    (G.edges.length + 2)
    [AStarNode.root start 0 (dist2 (xzOf (wm.pos start)) (xzOf (wm.pos goal)))]
    []).getD none

/-- Four-cell world for the missing-relaxation run: cells sit on the x axis at
x = 0, 1, 2, 3 with height 0 and z 0, so the horizontal distance between
cells `a` and `b` is exactly `|a - b|`. -/
def exWM : WorldMap ℤ where
  cells := [0, 1, 2, 3]
  pos := fun c => ((c : ℤ), 0, 0)
  neighbours := fun c =>
    if c = 0 then [1, 2]
    else if c = 1 then [0, 2, 3]
    else if c = 2 then [0, 1]
    else if c = 3 then [1] else []

/-- Navigation graph over `exWM`: both directions of the undirected edges
0–1 (weight 10), 0–2 (weight 1), 1–2 (weight 1), 1–3 (weight 1). -/
def exG : NavGraph ℤ where
  nodes := [0, 1, 2, 3]
  edges := [(0, 1, 10), (1, 0, 10), (0, 2, 1), (2, 0, 1),
            (1, 2, 1), (2, 1, 1), (1, 3, 1), (3, 1, 1)]

/-- The Euclidean distance restricted to the x axis: on the `xz` projections
of `exWM`'s positions (all with `z = 0`) this is exactly `Vec2::distance`. -/
def exDist2 : ℤ × ℤ → ℤ × ℤ → ℤ := fun p q => |p.1 - q.1|

/-- Two-cell world refuting the horizontal-denominator reading of the slope
test: positions (0, 0, 0) and (1064, 330, 0), so the horizontal distance is
1064, the height delta is 330, and the 3D distance is
√(1064² + 330²) = √1240996 = 1114 exactly. -/
def cexWM : WorldMap ℤ where
  cells := [0, 1]
  pos := fun c => if c = 0 then (0, 0, 0) else (1064, 330, 0)
  neighbours := fun c => if c = 0 then [1] else if c = 1 then [0] else []

/-- The Euclidean 3D distance on the two positions of `cexWM` (1114 for the
distinct pair, certified by 1114² = 1064² + 330² in the counterexample
theorem). -/
def cexDist3 : ℤ × ℤ × ℤ → ℤ × ℤ × ℤ → ℤ := fun p q => if p = q then 0 else 1114

/-- Two-cell symmetric world: positions (0, 0, 0) and (4, 0, 3) at equal
height, 3D distance √(4² + 3²) = 5 exactly. -/
def symWM : WorldMap ℤ where
  cells := [0, 1]
  pos := fun c => if c = 0 then (0, 0, 0) else (4, 0, 3)
  neighbours := fun c => if c = 0 then [1] else if c = 1 then [0] else []

/-- The Euclidean 3D distance on the two positions of `symWM` (5 for the
distinct pair), and likewise on the height-extended positions of the flat
`symPos2`/`symHeights` world below ((0,0,0) and (4,3,0), also at distance
5). -/
def symDist3 : ℤ × ℤ × ℤ → ℤ × ℤ × ℤ → ℤ := fun p q => if p = q then 0 else 5

/-- Cell list of the flat two-cell world for the main crate's builder. -/
def symCells : List ℕ := [0, 1]

/-- 2D voronoi site positions (0,0) and (4,3) of the flat two-cell world:
horizontal distance √(4² + 3²) = 5 exactly. -/
def symPos2 : ℕ → ℤ × ℤ := fun c => if c = 0 then (0, 0) else (4, 3)

/-- Heights of the flat two-cell world: all zero, so the height-extended
positions are (0,0,0) and (4,3,0). -/
def symHeights : ℕ → ℤ := fun _ => 0

/-- Mutual neighbour lists of the flat two-cell world. -/
def symNb : ℕ → List ℕ := fun c => if c = 0 then [1] else if c = 1 then [0] else []

/-- The Euclidean 2D distance on the two sites of `symPos2` (5 for the
distinct pair). -/
def symDist2 : ℤ × ℤ → ℤ × ℤ → ℤ := fun p q => if p = q then 0 else 5

/-- Two-cell degenerate world: both cells share the position (0, 0, 0), so
the distance between them is 0. -/
def zWM : WorldMap ℤ where
  cells := [0, 1]
  pos := fun _ => (0, 0, 0)
  neighbours := fun c => if c = 0 then [1] else if c = 1 then [0] else []

/-- The Euclidean 3D distance on `zWM`'s positions: all positions coincide,
so every distance is 0. -/
def zDist3 : ℤ × ℤ × ℤ → ℤ × ℤ × ℤ → ℤ := fun _ _ => 0

/-- Modelled from the spec: the final height normalization of the
`world_generation` height assembler (the crate is not under `src/`), behind
`WorldMap::get_raw_height`: "Final normalization rescales the (possibly
unbounded) height values so that all non-positive values map linearly into
[0, 0.5] and all positive values map linearly into [0.5, 1.0] (the pre-shift
zero becomes the canonical sea level at 0.5)".  `m` and `M` are the minimum
and maximum of the map's finite pre-normalization heights, `h` the height
being rescaled. -/
def normalizeHeight (m M h : ℚ) : ℚ :=
  if h ≤ 0 then
    if m < 0 then (h - m) / (-m) * (1 / 2) else 1 / 2
  else
    if 0 < M then 1 / 2 + h / M * (1 / 2) else 1

/-- The cell ids of a node list, used for open/closed bookkeeping. -/
def cellsOf {R : Type} (l : List (AStarNode R)) : List ℕ :=
  l.map AStarNode.cell_id

/-- One expansion step of `a_star`: `b` is reachable from `a` through an
admitted navigation-graph edge, i.e. `b` is a spatial neighbour of `a` and
the graph records an edge `a → b`. -/
def stepRel {R : Type} (nb : ℕ → List ℕ) (eW : ℕ → ℕ → Option R) (a b : ℕ) :
    Prop :=
  b ∈ nb a ∧ (eW a b).isSome

/-- Well-formedness of a search node's parent chain: the chain bottoms out at
the start cell and every parent link crosses an admitted edge. -/
def PathOk {R : Type} (nb : ℕ → List ℕ) (eW : ℕ → ℕ → Option R) (start : ℕ) :
    AStarNode R → Prop
  | .root c _ _ => c = start
  | .child c _ _ p => stepRel nb eW (AStarNode.cell_id p) c ∧ PathOk nb eW start p

/-- Invariant of `a_starLoop`'s state, relative to the fixed start, goal and
the finite universe `allCells` of cells reachable by pushes: open and closed
lists are disjoint, the closed set is closed under expansion into
open-or-closed, the start has been seen, the goal is never closed, all seen
cells lie in `allCells`, and every open node carries a well-formed parent
chain. -/
structure LoopInv {R : Type} (nb : ℕ → List ℕ) (eW : ℕ → ℕ → Option R)
    (start goal : ℕ) (allCells : List ℕ)
    (openL closedL : List (AStarNode R)) : Prop where
  disjoint : ∀ n ∈ openL, n.cell_id ∉ cellsOf closedL
  closure : ∀ c ∈ cellsOf closedL, ∀ b, stepRel nb eW c b →
    b ∈ cellsOf closedL ∨ b ∈ cellsOf openL
  start_seen : start ∈ cellsOf openL ∨ start ∈ cellsOf closedL
  goal_open : goal ∉ cellsOf closedL
  open_all : ∀ n ∈ openL, n.cell_id ∈ allCells
  closed_all : ∀ c ∈ cellsOf closedL, c ∈ allCells
  open_path : ∀ n ∈ openL, PathOk nb eW start n

theorem minByF_eq_none_iff {R : Type} [LinearOrderedCommRing R]
    (l : List (AStarNode R)) : minByF l = none ↔ l = [] := by
  induction l with
  | nil => simp [minByF]
  | cons x xs ih =>
    simp only [minByF]
    cases hm : minByF xs with
    | none => simp
    | some m =>
      constructor
      · intro hcontr
        by_cases hlt : m.f < x.f <;> simp [hlt] at hcontr
      · intro hcontr
        exact (List.cons_ne_nil _ _ hcontr).elim

theorem minByF_mem {R : Type} [LinearOrderedCommRing R]
    {l : List (AStarNode R)} {m : AStarNode R} (hm : minByF l = some m) :
    m ∈ l := by
  induction l generalizing m with
  | nil => simp [minByF] at hm
  | cons x xs ih =>
    cases hs : minByF xs with
    | none =>
      simp only [minByF, hs] at hm
      simp at hm
      simp [hm]
    | some m0 =>
      simp only [minByF, hs] at hm
      by_cases hlt : m0.f < x.f
      · simp only [if_pos hlt] at hm
        simp at hm
        exact List.mem_cons_of_mem _ (ih (hm ▸ hs))
      · simp only [if_neg hlt] at hm
        simp at hm
        simp [hm]

theorem minByF_min {R : Type} [LinearOrderedCommRing R]
    {l : List (AStarNode R)} {m : AStarNode R} (hm : minByF l = some m) :
    ∀ x ∈ l, m.f ≤ x.f := by
  induction l generalizing m with
  | nil => simp [minByF] at hm
  | cons x xs ih =>
    cases hs : minByF xs with
    | none =>
      simp only [minByF, hs] at hm
      simp at hm
      subst hm
      intro y hy
      rcases List.mem_cons.1 hy with h | h
      · exact le_of_eq (by rw [h])
      · rw [(minByF_eq_none_iff xs).1 hs] at h
        simp at h
    | some m0 =>
      simp only [minByF, hs] at hm
      by_cases hlt : m0.f < x.f
      · simp only [if_pos hlt] at hm
        simp at hm
        subst hm
        intro y hy
        rcases List.mem_cons.1 hy with h | h
        · exact le_of_lt (h ▸ hlt)
        · exact ih hs y h
      · simp only [if_neg hlt] at hm
        simp at hm
        subst hm
        intro y hy
        rcases List.mem_cons.1 hy with h | h
        · exact le_of_eq (by rw [h])
        · exact le_trans (le_of_not_lt hlt) (ih hs y h)

/-- `min_by` returns the first element attaining the minimum: if `n` is at
least as small as every later element, the head is selected. -/
theorem minByF_cons_of_min {R : Type} [LinearOrderedCommRing R]
    (n : AStarNode R) (l : List (AStarNode R)) (hmin : ∀ m ∈ l, n.f ≤ m.f) :
    minByF (n :: l) = some n := by
  simp only [minByF]
  cases hs : minByF l with
  | none => rfl
  | some m =>
    have : ¬ m.f < n.f := not_lt.2 (hmin m (minByF_mem hs))
    simp [this]

theorem pathOk_reach {R : Type} (nb : ℕ → List ℕ) (eW : ℕ → ℕ → Option R)
    (start : ℕ) :
    ∀ n : AStarNode R, PathOk nb eW start n →
      Relation.ReflTransGen (stepRel nb eW) start n.cell_id
  | .root c _ _, hp => by
    cases hp
    exact Relation.ReflTransGen.refl
  | .child c _ _ p, hp =>
    Relation.ReflTransGen.tail (pathOk_reach nb eW start p hp.2) hp.1

theorem reconstruct_head {R : Type} (n : AStarNode R) :
    (reconstruct_path n).head? = some n.cell_id := by
  cases n <;> rfl

theorem reconstruct_getLast {R : Type} (nb : ℕ → List ℕ)
    (eW : ℕ → ℕ → Option R) (start : ℕ) :
    ∀ n : AStarNode R, PathOk nb eW start n →
      (reconstruct_path n).getLast? = some start
  | .root c _ _, hp => by
    cases hp
    rfl
  | .child c _ _ p, hp => by
    have hlast := reconstruct_getLast nb eW start p hp.2
    show (c :: reconstruct_path p).getLast? = some start
    have hmem : start ∈ (c :: reconstruct_path p).getLast? :=
      List.mem_getLast?_cons (by simpa using hlast)
    simpa using hmem

theorem reconstruct_chain {R : Type} (nb : ℕ → List ℕ)
    (eW : ℕ → ℕ → Option R) (start : ℕ) :
    ∀ n : AStarNode R, PathOk nb eW start n →
      List.Chain' (fun a b => stepRel nb eW b a) (reconstruct_path n)
  | .root c _ _, _ => by simp [reconstruct_path]
  | .child c _ _ p, hp => by
    have htail := reconstruct_chain nb eW start p hp.2
    have hhead : (reconstruct_path p).head? = some p.cell_id :=
      reconstruct_head p
    refine List.chain'_cons'.2 ⟨?_, htail⟩
    intro b hb
    rw [hhead] at hb
    cases hb
    exact hp.1

theorem any_cells_iff {R : Type} (l : List (AStarNode R)) (c : ℕ) :
    (l.any fun n => n.cell_id == c) = true ↔ c ∈ cellsOf l := by
  rw [List.any_eq_true]
  constructor
  · rintro ⟨n, hn, hbeq⟩
    exact List.mem_map.2 ⟨n, hn, by simpa using hbeq⟩
  · rintro hc
    rcases List.mem_map.1 hc with ⟨n, hn, hcell⟩
    exact ⟨n, hn, by simpa using hcell⟩

theorem processNeighbour_cases {R : Type} [LinearOrderedCommRing R]
    (eW : ℕ → ℕ → Option R) (hfun : ℕ → R) (closedL : List (AStarNode R))
    (current : AStarNode R) (ol : List (AStarNode R)) (n_id : ℕ) :
    processNeighbour eW hfun closedL current ol n_id = ol ∨
    ∃ w, eW current.cell_id n_id = some w ∧ n_id ∉ cellsOf closedL ∧
      (∀ n ∈ ol, n.cell_id ≠ n_id) ∧
      processNeighbour eW hfun closedL current ol n_id =
        ol ++ [AStarNode.child n_id (current.g + w) (hfun n_id) current] := by
  unfold processNeighbour
  by_cases hcl : (closedL.any fun n => n.cell_id == n_id) = true
  · simp [hcl]
  · simp only [hcl, if_neg, Bool.false_eq_true, not_false_eq_true, if_false]
    cases heW : eW current.cell_id n_id with
    | none => exact Or.inl rfl
    | some w =>
      cases hfind : ol.find? fun n => n.cell_id == n_id with
      | some nbr => simp
      | none =>
        right
        refine ⟨w, rfl, ?_, ?_, rfl⟩
        · intro hin
          exact hcl ((any_cells_iff closedL n_id).2 hin)
        · intro n hn
          have := List.find?_eq_none.1 hfind n hn
          simpa using this

theorem processNeighbour_mem {R : Type} [LinearOrderedCommRing R]
    (eW : ℕ → ℕ → Option R) (hfun : ℕ → R) (closedL : List (AStarNode R))
    (current : AStarNode R) (ol : List (AStarNode R)) (n_id : ℕ)
    {x : AStarNode R} (hx : x ∈ ol) :
    x ∈ processNeighbour eW hfun closedL current ol n_id := by
  rcases processNeighbour_cases eW hfun closedL current ol n_id with h | ⟨w, _, _, _, h⟩
  · rw [h]; exact hx
  · rw [h]; exact List.mem_append_left _ hx

theorem foldl_processNeighbour_mem {R : Type} [LinearOrderedCommRing R]
    (eW : ℕ → ℕ → Option R) (hfun : ℕ → R) (closedL : List (AStarNode R))
    (current : AStarNode R) :
    ∀ (l : List ℕ) (ol : List (AStarNode R)) (x : AStarNode R), x ∈ ol →
      x ∈ l.foldl (processNeighbour eW hfun closedL current) ol
  | [], _, _, hx => hx
  | a :: l, ol, x, hx =>
    foldl_processNeighbour_mem eW hfun closedL current l _ x
      (processNeighbour_mem eW hfun closedL current ol a hx)

theorem foldl_processNeighbour_src {R : Type} [LinearOrderedCommRing R]
    (eW : ℕ → ℕ → Option R) (hfun : ℕ → R) (closedL : List (AStarNode R))
    (current : AStarNode R) :
    ∀ (l : List ℕ) (ol : List (AStarNode R)) (x : AStarNode R),
      x ∈ l.foldl (processNeighbour eW hfun closedL current) ol →
      x ∈ ol ∨ ∃ a w, a ∈ l ∧ eW current.cell_id a = some w ∧
        a ∉ cellsOf closedL ∧
        x = AStarNode.child a (current.g + w) (hfun a) current := by
  intro l
  induction l with
  | nil => intro ol x hx; exact Or.inl hx
  | cons a l ih =>
    intro ol x hx
    rcases ih _ x hx with hx0 | ⟨b, w, hb, hbw, hbcl, hbx⟩
    · rcases processNeighbour_cases eW hfun closedL current ol a with h | ⟨w, hw, hcl, _, h⟩
      · rw [h] at hx0; exact Or.inl hx0
      · rw [h] at hx0
        rcases List.mem_append.1 hx0 with hx1 | hx1
        · exact Or.inl hx1
        · right
          refine ⟨a, w, List.mem_cons_self a l, hw, hcl, ?_⟩
          simpa using hx1
    · exact Or.inr ⟨b, w, List.mem_cons_of_mem a hb, hbw, hbcl, hbx⟩

theorem processNeighbour_covers {R : Type} [LinearOrderedCommRing R]
    (eW : ℕ → ℕ → Option R) (hfun : ℕ → R) (closedL : List (AStarNode R))
    (current : AStarNode R) (ol : List (AStarNode R)) (a : ℕ)
    (ha : (eW current.cell_id a).isSome) :
    a ∈ cellsOf closedL ∨
      a ∈ cellsOf (processNeighbour eW hfun closedL current ol a) := by
  unfold processNeighbour
  by_cases hcl : (closedL.any fun n => n.cell_id == a) = true
  · exact Or.inl ((any_cells_iff closedL a).1 hcl)
  · simp only [hcl, Bool.false_eq_true, not_false_eq_true, if_false, if_neg]
    cases heW : eW current.cell_id a with
    | none => rw [heW] at ha; simp at ha
    | some w =>
      cases hfind : ol.find? fun n => n.cell_id == a with
      | some nbr =>
        right
        have hmem : nbr ∈ ol := List.mem_of_find?_eq_some hfind
        have hcell : nbr.cell_id = a := by
          simpa using List.find?_some hfind
        have hol : a ∈ cellsOf ol := List.mem_map.2 ⟨nbr, hmem, hcell⟩
        simp only [cellsOf] at hol ⊢
        simpa using List.mem_map.1 hol
      | none =>
        right
        simp only [cellsOf]
        refine List.mem_map.2 ⟨AStarNode.child a (current.g + w) (hfun a) current, ?_, rfl⟩
        simp

theorem foldl_processNeighbour_covers {R : Type} [LinearOrderedCommRing R]
    (eW : ℕ → ℕ → Option R) (hfun : ℕ → R) (closedL : List (AStarNode R))
    (current : AStarNode R) :
    ∀ (l : List ℕ) (ol : List (AStarNode R)) (b : ℕ), b ∈ l →
      (eW current.cell_id b).isSome →
      b ∈ cellsOf closedL ∨
        b ∈ cellsOf (l.foldl (processNeighbour eW hfun closedL current) ol) := by
  intro l
  induction l with
  | nil => intro ol b hb; simp at hb
  | cons a l ih =>
    intro ol b hb hbsome
    rcases List.mem_cons.1 hb with hb1 | hb1
    · subst hb1
      rcases processNeighbour_covers eW hfun closedL current ol b hbsome with h | h
      · exact Or.inl h
      · right
        rcases List.mem_map.1 h with ⟨n, hn, hcell⟩
        exact List.mem_map.2
          ⟨n, foldl_processNeighbour_mem eW hfun closedL current l _ n hn, hcell⟩
    · exact ih _ b hb1 hbsome

theorem a_starLoop_spec {R : Type} [LinearOrderedCommRing R]
    (nb : ℕ → List ℕ) (eW : ℕ → ℕ → Option R) (hfun : ℕ → R)
    (start goal : ℕ) (allCells : List ℕ)
    (hstep : ∀ a b, stepRel nb eW a b → b ∈ allCells) :
    ∀ (fuel : ℕ) (openL closedL : List (AStarNode R)),
      LoopInv nb eW start goal allCells openL closedL →
      (allCells.toFinset \ (cellsOf closedL).toFinset).card < fuel →
      ∃ r, a_starLoop nb eW hfun goal fuel openL closedL = some r ∧
        (r = none → ¬ Relation.ReflTransGen (stepRel nb eW) start goal) ∧
        (∀ p, r = some p → ∃ n : AStarNode R, PathOk nb eW start n ∧
          n.cell_id = goal ∧ p = reconstruct_path n) := by
  intro fuel
  induction fuel with
  | zero => intro openL closedL _ hcard; omega
  | succ fuel ih =>
    intro openL closedL hinv hcard
    cases hmin : minByF openL with
    | none =>
      have hopenE : openL = [] := (minByF_eq_none_iff openL).1 hmin
      refine ⟨none, by simp [a_starLoop, hmin], ?_, by simp⟩
      intro _ hreach
      have hall : ∀ c, Relation.ReflTransGen (stepRel nb eW) start c →
          c ∈ cellsOf closedL := by
        intro c hc
        induction hc with
        | refl =>
          rcases hinv.start_seen with h | h
          · rw [hopenE] at h; simp [cellsOf] at h
          · exact h
        | tail hab hbc ihc =>
          rcases hinv.closure _ ihc _ hbc with h | h
          · exact h
          · rw [hopenE] at h; simp [cellsOf] at h
      exact hinv.goal_open (hall goal hreach)
    | some current =>
      have hcur_mem : current ∈ openL := minByF_mem hmin
      by_cases hgoal : current.cell_id = goal
      · refine ⟨some (reconstruct_path current),
          by simp [a_starLoop, hmin, hgoal], by simp, ?_⟩
        intro p hp
        refine ⟨current, hinv.open_path _ hcur_mem, hgoal, ?_⟩
        simpa using hp.symm
      · have hcur_not_closed : current.cell_id ∉ cellsOf closedL :=
          hinv.disjoint _ hcur_mem
        have hcells1 :
            cellsOf (closedL ++ [current]) = cellsOf closedL ++ [current.cell_id] := by
          simp [cellsOf]
        have hopen1_mem : ∀ n : AStarNode R,
            n ∈ (openL.filter fun m => m.cell_id != current.cell_id) ↔
              n ∈ openL ∧ n.cell_id ≠ current.cell_id := by
          intro n
          simp [List.mem_filter]
        have hinv1 : LoopInv nb eW start goal allCells
            ((nb current.cell_id).foldl
              (processNeighbour eW hfun (closedL ++ [current]) current)
              (openL.filter fun m => m.cell_id != current.cell_id))
            (closedL ++ [current]) := by
          constructor
          · intro n hn
            rcases foldl_processNeighbour_src eW hfun (closedL ++ [current])
                current _ _ n hn with hn1 | ⟨a, w, _, _, hacl, hnx⟩
            · rcases (hopen1_mem n).1 hn1 with ⟨hnOpen, hnne⟩
              rw [hcells1]
              intro hc
              rcases List.mem_append.1 hc with hc | hc
              · exact hinv.disjoint _ hnOpen hc
              · exact hnne (by simpa using hc)
            · rw [hnx]
              exact hacl
          · intro c hc b hb
            rw [hcells1] at hc
            rcases List.mem_append.1 hc with hc | hc
            · rcases hinv.closure _ hc _ hb with h | h
              · left; rw [hcells1]; exact List.mem_append_left _ h
              · rcases List.mem_map.1 h with ⟨m, hm, hmc⟩
                by_cases hbc : b = current.cell_id
                · left; rw [hcells1, hbc]; simp
                · right
                  refine List.mem_map.2 ⟨m, ?_, hmc⟩
                  refine foldl_processNeighbour_mem eW hfun _ current _ _ m ?_
                  exact (hopen1_mem m).2 ⟨hm, by rw [hmc]; exact hbc⟩
            · have hcc : c = current.cell_id := by simpa using hc
              rw [hcc] at hb
              rcases foldl_processNeighbour_covers eW hfun (closedL ++ [current])
                  current (nb current.cell_id) _ b hb.1 hb.2 with h | h
              · exact Or.inl h
              · exact Or.inr h
          · rcases hinv.start_seen with h | h
            · rcases List.mem_map.1 h with ⟨m, hm, hmc⟩
              by_cases hsc : start = current.cell_id
              · right; rw [hcells1, hsc]; simp
              · left
                refine List.mem_map.2 ⟨m, ?_, hmc⟩
                refine foldl_processNeighbour_mem eW hfun _ current _ _ m ?_
                exact (hopen1_mem m).2 ⟨hm, by rw [hmc]; exact hsc⟩
            · right; rw [hcells1]; exact List.mem_append_left _ h
          · rw [hcells1]
            intro hc
            rcases List.mem_append.1 hc with hc | hc
            · exact hinv.goal_open hc
            · have hcg : goal = current.cell_id := by simpa using hc
              exact hgoal hcg.symm
          · intro n hn
            rcases foldl_processNeighbour_src eW hfun (closedL ++ [current])
                current _ _ n hn with hn1 | ⟨a, w, ha, hw, _, hnx⟩
            · exact hinv.open_all _ ((hopen1_mem n).1 hn1).1
            · rw [hnx]
              have hs : stepRel nb eW current.cell_id a := ⟨ha, by rw [hw]; rfl⟩
              exact hstep current.cell_id a hs
          · intro c hc
            rw [hcells1] at hc
            rcases List.mem_append.1 hc with hc | hc
            · exact hinv.closed_all _ hc
            · have : c = current.cell_id := by simpa using hc
              rw [this]
              exact hinv.open_all _ hcur_mem
          · intro n hn
            rcases foldl_processNeighbour_src eW hfun (closedL ++ [current])
                current _ _ n hn with hn1 | ⟨a, w, ha, hw, _, hnx⟩
            · exact hinv.open_path _ ((hopen1_mem n).1 hn1).1
            · rw [hnx]
              have hs : stepRel nb eW current.cell_id a := ⟨ha, by rw [hw]; rfl⟩
              show stepRel nb eW (AStarNode.cell_id current) a ∧
                PathOk nb eW start current
              exact ⟨hs, hinv.open_path _ hcur_mem⟩
        have hcard1 :
            (allCells.toFinset \ (cellsOf (closedL ++ [current])).toFinset).card
              < fuel := by
          have hsub : allCells.toFinset \ (cellsOf (closedL ++ [current])).toFinset ⊆
              allCells.toFinset \ (cellsOf closedL).toFinset := by
            apply Finset.sdiff_subset_sdiff (le_refl _)
            intro x hx
            rw [hcells1]
            rcases List.mem_toFinset.1 hx with h
            exact List.mem_toFinset.2 (List.mem_append_left _ h)
          have hccur : current.cell_id ∈
              allCells.toFinset \ (cellsOf closedL).toFinset := by
            rw [Finset.mem_sdiff]
            exact ⟨List.mem_toFinset.2 (hinv.open_all _ hcur_mem),
              fun hmem => hcur_not_closed (List.mem_toFinset.1 hmem)⟩
          have hncur : current.cell_id ∉
              allCells.toFinset \ (cellsOf (closedL ++ [current])).toFinset := by
            rw [Finset.mem_sdiff]
            rintro ⟨_, hno⟩
            apply hno
            rw [List.mem_toFinset, hcells1]
            simp
          have hlt : (allCells.toFinset \ (cellsOf (closedL ++ [current])).toFinset).card
              < (allCells.toFinset \ (cellsOf closedL).toFinset).card := by
            apply Finset.card_lt_card
            exact (Finset.ssubset_iff_of_subset hsub).2 ⟨_, hccur, hncur⟩
          omega
        obtain ⟨r, hr, h1, h2⟩ := ih _ _ hinv1 hcard1
        refine ⟨r, ?_, h1, h2⟩
        simpa [a_starLoop, hmin, hgoal] using hr

theorem edgeWeight_isSome_mem {R : Type} {G : NavGraph R} {a b : ℕ}
    (hw : (edgeWeight G a b).isSome) : ∃ w, (a, b, w) ∈ G.edges := by
  unfold edgeWeight at hw
  cases hfind : G.edges.find? fun e => a == e.1 && b == e.2.1 with
  | none => rw [hfind] at hw; simp at hw
  | some e =>
    have hmem : e ∈ G.edges := List.mem_of_find?_eq_some hfind
    have hpred := List.find?_some hfind
    simp only [Bool.and_eq_true, beq_iff_eq] at hpred
    exact ⟨e.2.2, by rw [hpred.1, hpred.2]; exact hmem⟩

theorem mem_edges_edgeWeight_isSome {R : Type} {G : NavGraph R} {a b : ℕ}
    {w : R} (hmem : (a, b, w) ∈ G.edges) : (edgeWeight G a b).isSome := by
  unfold edgeWeight
  cases hfind : G.edges.find? fun e => a == e.1 && b == e.2.1 with
  | none =>
    have := List.find?_eq_none.1 hfind _ hmem
    simp at this
  | some e => simp

/-- Combined specification of `a_star`: the loop's fuel suffices, the result
is `none` exactly when the goal is not reachable from the start through
admitted edges, and any returned path is the parent-chain reconstruction of
a well-formed goal node. -/
theorem a_star_spec {R : Type} [LinearOrderedCommRing R] (start goal : ℕ)
    (G : NavGraph R) (wm : WorldMap R) (dist2 : R × R → R × R → R) :
    (a_star start goal G wm dist2 = none ↔
      ¬ Relation.ReflTransGen (stepRel wm.neighbours (edgeWeight G)) start goal) ∧
    (∀ p, a_star start goal G wm dist2 = some p →
      ∃ n : AStarNode R, PathOk wm.neighbours (edgeWeight G) start n ∧
        n.cell_id = goal ∧ p = reconstruct_path n) := by
  have hstep : ∀ a b, stepRel wm.neighbours (edgeWeight G) a b →
      b ∈ start :: G.edges.map fun e => e.2.1 := by
    intro a b hab
    rcases edgeWeight_isSome_mem hab.2 with ⟨w, hw⟩
    exact List.mem_cons_of_mem _ (List.mem_map.2 ⟨(a, b, w), hw, rfl⟩)
  have hinv : LoopInv wm.neighbours (edgeWeight G) start goal
      (start :: G.edges.map fun e => e.2.1)
      [AStarNode.root start 0 (dist2 (xzOf (wm.pos start)) (xzOf (wm.pos goal)))]
      [] := by
    constructor
    · intro n _; simp [cellsOf]
    · intro c hc; simp [cellsOf] at hc
    · left; simp [cellsOf, AStarNode.cell_id]
    · simp [cellsOf]
    · intro n hn
      have : n = AStarNode.root start 0
          (dist2 (xzOf (wm.pos start)) (xzOf (wm.pos goal))) := by simpa using hn
      rw [this]
      simp [AStarNode.cell_id]
    · intro c hc; simp [cellsOf] at hc
    · intro n hn
      have : n = AStarNode.root start 0
          (dist2 (xzOf (wm.pos start)) (xzOf (wm.pos goal))) := by simpa using hn
      rw [this]
      show start = start
      rfl
  have hfuel : ((start :: G.edges.map fun e => e.2.1).toFinset \
      (cellsOf ([] : List (AStarNode R))).toFinset).card < G.edges.length + 2 := by
    have h1 : (start :: G.edges.map fun e => e.2.1).toFinset.card ≤
        (start :: G.edges.map fun e => e.2.1).length := List.toFinset_card_le _
    have h2 : (start :: G.edges.map fun e => e.2.1).length =
        G.edges.length + 1 := by simp
    have h3 : (cellsOf ([] : List (AStarNode R))).toFinset = ∅ := by
      simp [cellsOf]
    rw [h3, Finset.sdiff_empty]
    omega
  obtain ⟨r, hr, hnone, hsome⟩ := a_starLoop_spec wm.neighbours (edgeWeight G)
    (fun c => dist2 (xzOf (wm.pos c)) (xzOf (wm.pos goal))) start goal
    (start :: G.edges.map fun e => e.2.1) hstep (G.edges.length + 2)
    [AStarNode.root start 0 (dist2 (xzOf (wm.pos start)) (xzOf (wm.pos goal)))]
    [] hinv hfuel
  have ha : a_star start goal G wm dist2 = r := by
    unfold a_star
    rw [hr]
    rfl
  constructor
  · constructor
    · intro hnone2
      exact hnone (by rw [← ha, hnone2])
    · intro hnr
      cases hrv : r with
      | none => rw [ha, hrv]
      | some p =>
        obtain ⟨n, hn, hcell, _⟩ := hsome p hrv
        exact absurd (hcell ▸ pathOk_reach _ _ start n hn) hnr
  · intro p hp
    exact hsome p (by rw [← ha]; exact hp)

theorem mem_get_graph_iff {R : Type} [LinearOrderedCommRing R]
    (wm : WorldMap R) (dist3 : R × R × R → R × R × R → R) (a b : ℕ) (w : R) :
    (a, b, w) ∈ (get_graph wm dist3).edges ↔
      a ∈ wm.cells ∧ b ∈ wm.neighbours a ∧
        slopeLtThreshold |heightOf (wm.pos a) - heightOf (wm.pos b)|
          (dist3 (wm.pos a) (wm.pos b)) = true ∧
        w = dist3 (wm.pos a) (wm.pos b) := by
  show (a, b, w) ∈ wm.cells.flatMap _ ↔ _
  rw [List.mem_flatMap]
  constructor
  · rintro ⟨c, hc, hmem⟩
    rw [List.mem_filterMap] at hmem
    rcases hmem with ⟨n, hn, hsome⟩
    by_cases hs : slopeLtThreshold |heightOf (wm.pos c) - heightOf (wm.pos n)|
        (dist3 (wm.pos c) (wm.pos n)) = true
    · rw [if_pos hs] at hsome
      have hca : c = a := congrArg Prod.fst (Option.some.inj hsome)
      have hnb : n = b := congrArg (fun t => t.2.1) (Option.some.inj hsome)
      have hww : dist3 (wm.pos c) (wm.pos n) = w :=
        congrArg (fun t => t.2.2) (Option.some.inj hsome)
      subst hca
      subst hnb
      exact ⟨hc, hn, hs, hww.symm⟩
    · rw [if_neg hs] at hsome
      cases hsome
  · rintro ⟨ha, hb, hs, hw⟩
    refine ⟨a, ha, ?_⟩
    rw [List.mem_filterMap]
    exact ⟨b, hb, by rw [if_pos hs, hw]⟩

theorem mem_get_graph2_iff {R : Type} [LinearOrderedCommRing R]
    (cells : List ℕ) (pos2 : ℕ → R × R) (heights : ℕ → R) (nb : ℕ → List ℕ)
    (dist2 : R × R → R × R → R) (dist3 : R × R × R → R × R × R → R)
    (a b : ℕ) (w : R) :
    (a, b, w) ∈ (get_graph2 cells pos2 heights nb dist2 dist3).edges ↔
      a ∈ cells ∧ b ∈ nb a ∧
        slopeLtThreshold |heights a - heights b| (dist2 (pos2 a) (pos2 b)) = true ∧
        w = dist3 (extendP (pos2 a) (heights a)) (extendP (pos2 b) (heights b)) := by
  show (a, b, w) ∈ cells.flatMap _ ↔ _
  rw [List.mem_flatMap]
  constructor
  · rintro ⟨c, hc, hmem⟩
    rw [List.mem_filterMap] at hmem
    rcases hmem with ⟨n, hn, hsome⟩
    by_cases hs : slopeLtThreshold |heights c - heights n|
        (dist2 (pos2 c) (pos2 n)) = true
    · rw [if_pos hs] at hsome
      have hca : c = a := congrArg Prod.fst (Option.some.inj hsome)
      have hnb : n = b := congrArg (fun t => t.2.1) (Option.some.inj hsome)
      have hww := congrArg (fun t => t.2.2) (Option.some.inj hsome)
      subst hca
      subst hnb
      exact ⟨hc, hn, hs, hww.symm⟩
    · rw [if_neg hs] at hsome
      cases hsome
  · rintro ⟨ha, hb, hs, hw⟩
    refine ⟨a, ha, ?_⟩
    rw [List.mem_filterMap]
    exact ⟨b, hb, by rw [if_pos hs, hw]⟩

/-- Claim C1: in `a_star`'s expansion, when a neighbour already on the open
list admits a strictly smaller tentative cost `g` through the current node,
the source leaves the neighbour's `g` and parent unchanged (the
`if tent_g >= neighbor.g { continue; }` has an empty fall-through): at a
state reached in the run below, neighbour 1 sits on the open list with
`g = 10`, the tentative cost through cell 2 is `2 < 10`, and the open list
is returned unchanged; consequently the full run from 0 to 3 answers
`[3, 1, 0]` (cost 11 via the weight-10 edge) instead of the relaxed
`[3, 1, 2, 0]` (cost 3). -/
theorem c1_relaxation_missing :
    processNeighbour (edgeWeight exG)
        (fun c => exDist2 (xzOf (exWM.pos c)) (xzOf (exWM.pos 3)))
        [AStarNode.root 0 0 3, AStarNode.child 2 1 1 (AStarNode.root 0 0 3)]
        (AStarNode.child 2 1 1 (AStarNode.root 0 0 3))
        [AStarNode.child 1 10 2 (AStarNode.root 0 0 3)] 1 =
      [AStarNode.child 1 10 2 (AStarNode.root 0 0 3)] ∧
    edgeWeight exG 2 1 = some 1 ∧
    (AStarNode.child 2 1 1 (AStarNode.root 0 0 3)).g + 1 <
      (AStarNode.child 1 10 2 (AStarNode.root 0 0 3)).g ∧
    a_star 0 3 exG exWM exDist2 = some [3, 1, 0] :=
  ⟨by decide, by decide, by decide, by decide⟩

/-- Claim C2 (counterexample): the `pathfinding` crate's builder admits the
edge 0 → 1 of `cexWM` (weight 1114, the 3D distance, certified by
1114·1114 = 1064·1064 + 330·330 with horizontal projections (0,0) and
(1064,0)), although its height delta 330 divided by its horizontal distance
1064 is not below 0.3 (10·330 ≥ 3·1064) — refuting "admits iff
|height delta| / horizontal distance < 0.3". -/
theorem c2_horizontal_slope_counterexample :
    (0, 1, (1114 : ℤ)) ∈ (get_graph cexWM cexDist3).edges ∧
    ¬ 10 * |heightOf (cexWM.pos 0) - heightOf (cexWM.pos 1)| < 3 * (1064 : ℤ) ∧
    (1114 : ℤ) * 1114 = 1064 * 1064 + 330 * 330 ∧
    xzOf (cexWM.pos 0) = ((0 : ℤ), (0 : ℤ)) ∧
    xzOf (cexWM.pos 1) = ((1064 : ℤ), (0 : ℤ)) :=
  ⟨by decide, by decide, by decide, by decide, by decide⟩

/-- Claim C2 (amended): in the `pathfinding` crate's `get_graph` the slope
denominator is the full 3D distance between the cell positions — the edge
`(a, b, w)` is in the built graph iff `a` is a cell, `b` a neighbour of
`a`, `|Δy| / dist3 < 0.3` holds (in the division-free IEEE encoding
`slopeLtThreshold`), and `w` is that same 3D distance; the main crate's
`get_graph` (src/src/pathfinding.rs) uses the horizontal distance as the
claim stated, with the 3D distance of the height-extended positions as
weight. -/
theorem c2_slope_uses_3d_distance {R : Type} [LinearOrderedCommRing R]
    (wm : WorldMap R) (dist3 : R × R × R → R × R × R → R)
    (cells : List ℕ) (pos2 : ℕ → R × R) (heights : ℕ → R) (nb : ℕ → List ℕ)
    (dist2 : R × R → R × R → R) (a b : ℕ) (w : R) :
    ((a, b, w) ∈ (get_graph wm dist3).edges ↔
      a ∈ wm.cells ∧ b ∈ wm.neighbours a ∧
        slopeLtThreshold |heightOf (wm.pos a) - heightOf (wm.pos b)|
          (dist3 (wm.pos a) (wm.pos b)) = true ∧
        w = dist3 (wm.pos a) (wm.pos b)) ∧
    ((a, b, w) ∈ (get_graph2 cells pos2 heights nb dist2 dist3).edges ↔
      a ∈ cells ∧ b ∈ nb a ∧
        slopeLtThreshold |heights a - heights b| (dist2 (pos2 a) (pos2 b)) = true ∧
        w = dist3 (extendP (pos2 a) (heights a)) (extendP (pos2 b) (heights b))) :=
  ⟨mem_get_graph_iff wm dist3 a b w,
    mem_get_graph2_iff cells pos2 heights nb dist2 dist3 a b w⟩

/-- Claim C3: `a_star` terminates for every graph and cell pair (it is a
total function), and it returns `None` exactly when the goal is not
reachable from the start through admitted navigation-graph edges; the
unreachable outcome is the ordinary value `none`, not an error. -/
theorem c3_none_iff_unreachable {R : Type} [LinearOrderedCommRing R]
    (start goal : ℕ) (G : NavGraph R) (wm : WorldMap R)
    (dist2 : R × R → R × R → R) :
    a_star start goal G wm dist2 = none ↔
      ¬ Relation.ReflTransGen (stepRel wm.neighbours (edgeWeight G)) start goal :=
  (a_star_spec start goal G wm dist2).1

/-- Claim C4: every path returned by `a_star` lists the goal first and the
start last (the reversal is omitted), and consecutive cells are joined by
admitted navigation-graph edges (each cell steps to its predecessor in the
list). -/
theorem c4_goal_first_start_last {R : Type} [LinearOrderedCommRing R]
    (start goal : ℕ) (G : NavGraph R) (wm : WorldMap R)
    (dist2 : R × R → R × R → R) (p : List ℕ)
    (hp : a_star start goal G wm dist2 = some p) :
    p.head? = some goal ∧ p.getLast? = some start ∧
      List.Chain' (fun a b => stepRel wm.neighbours (edgeWeight G) b a) p := by
  obtain ⟨n, hok, hcell, hrec⟩ := (a_star_spec start goal G wm dist2).2 p hp
  subst hrec
  exact ⟨by rw [reconstruct_head n, hcell], reconstruct_getLast _ _ _ n hok,
    reconstruct_chain _ _ _ n hok⟩

theorem c4_goal_first_start_last_witness :
    ([3, 1, 0] : List ℕ).head? = some 3 ∧
      ([3, 1, 0] : List ℕ).getLast? = some 0 ∧
      List.Chain' (fun a b => stepRel exWM.neighbours (edgeWeight exG) b a)
        [3, 1, 0] :=
  c4_goal_first_start_last 0 3 exG exWM exDist2 [3, 1, 0] (by decide)

/-- Claim C5: provided the spatial neighbour relation is symmetric (and
neighbours of cells are cells, as the sources' `unwrap`s assume) and the
distance functions are symmetric, both builders are undirected in effect:
every admitted edge `a → b` has a mirror edge `b → a` with the same
weight, and that weight is the 3D distance between the two cells'
height-inclusive positions — `dist3 (pos a) (pos b)` in the `pathfinding`
crate's `get_graph`, and the 3D distance of the height-extended site
positions in the main crate's `get_graph` (embedded as `get_graph2`). -/
theorem c5_symmetric_edges_euclidean_weight {R : Type}
    [LinearOrderedCommRing R] (wm : WorldMap R)
    (dist3 : R × R × R → R × R × R → R)
    (cells : List ℕ) (pos2 : ℕ → R × R) (heights : ℕ → R) (nb : ℕ → List ℕ)
    (dist2 : R × R → R × R → R)
    (hnb_sym : ∀ a ∈ wm.cells, ∀ b ∈ wm.neighbours a, a ∈ wm.neighbours b)
    (hnb_cl : ∀ a ∈ wm.cells, ∀ b ∈ wm.neighbours a, b ∈ wm.cells)
    (hnb2_sym : ∀ a ∈ cells, ∀ b ∈ nb a, a ∈ nb b)
    (hnb2_cl : ∀ a ∈ cells, ∀ b ∈ nb a, b ∈ cells)
    (hd3_sym : ∀ p q, dist3 p q = dist3 q p)
    (hd2_sym : ∀ p q, dist2 p q = dist2 q p) :
    (∀ a b, ∀ w : R, (a, b, w) ∈ (get_graph wm dist3).edges →
      (b, a, w) ∈ (get_graph wm dist3).edges ∧
        w = dist3 (wm.pos a) (wm.pos b)) ∧
    (∀ a b, ∀ w : R,
      (a, b, w) ∈ (get_graph2 cells pos2 heights nb dist2 dist3).edges →
      (b, a, w) ∈ (get_graph2 cells pos2 heights nb dist2 dist3).edges ∧
        w = dist3 (extendP (pos2 a) (heights a))
          (extendP (pos2 b) (heights b))) := by
  constructor
  · intro a b w hab
    obtain ⟨ha, hb, hs, hw⟩ := (mem_get_graph_iff wm dist3 a b w).1 hab
    refine ⟨(mem_get_graph_iff wm dist3 b a w).2
      ⟨hnb_cl a ha b hb, hnb_sym a ha b hb, ?_, ?_⟩, hw⟩
    · rw [abs_sub_comm, hd3_sym (wm.pos b) (wm.pos a)]
      exact hs
    · rw [hd3_sym (wm.pos b) (wm.pos a)]
      exact hw
  · intro a b w hab
    obtain ⟨ha, hb, hs, hw⟩ :=
      (mem_get_graph2_iff cells pos2 heights nb dist2 dist3 a b w).1 hab
    refine ⟨(mem_get_graph2_iff cells pos2 heights nb dist2 dist3 b a w).2
      ⟨hnb2_cl a ha b hb, hnb2_sym a ha b hb, ?_, ?_⟩, hw⟩
    · rw [abs_sub_comm, hd2_sym (pos2 b) (pos2 a)]
      exact hs
    · rw [hd3_sym (extendP (pos2 b) (heights b)) (extendP (pos2 a) (heights a))]
      exact hw

theorem c5_symmetric_edges_euclidean_weight_witness :
    ((1, 0, (5 : ℤ)) ∈ (get_graph symWM symDist3).edges ∧
      (5 : ℤ) = symDist3 (symWM.pos 0) (symWM.pos 1)) ∧
    ((1, 0, (5 : ℤ)) ∈
        (get_graph2 symCells symPos2 symHeights symNb symDist2 symDist3).edges ∧
      (5 : ℤ) = symDist3 (extendP (symPos2 0) (symHeights 0))
        (extendP (symPos2 1) (symHeights 1))) := by
  have hsym3 : ∀ p q : ℤ × ℤ × ℤ, symDist3 p q = symDist3 q p := by
    intro p q
    unfold symDist3
    by_cases hpq : p = q
    · rw [if_pos hpq, if_pos hpq.symm]
    · rw [if_neg hpq, if_neg fun hh => hpq hh.symm]
  have hsym2 : ∀ p q : ℤ × ℤ, symDist2 p q = symDist2 q p := by
    intro p q
    unfold symDist2
    by_cases hpq : p = q
    · rw [if_pos hpq, if_pos hpq.symm]
    · rw [if_neg hpq, if_neg fun hh => hpq hh.symm]
  obtain ⟨h1, h2⟩ := c5_symmetric_edges_euclidean_weight symWM symDist3
    symCells symPos2 symHeights symNb symDist2 (by decide) (by decide)
    (by decide) (by decide) hsym3 hsym2
  exact ⟨h1 0 1 5 (by decide), h2 0 1 5 (by decide)⟩

/-- Claim C6: building the navigation graph twice from the same immutable
world map yields identical edge lists (hence identical edge sets and
per-edge weights) and identical node lists — `get_graph` is a pure function
of its inputs, so a rebuild reproduces the graph exactly. -/
theorem c6_rebuild_identical {R : Type} [LinearOrderedCommRing R]
    (wm : WorldMap R) (dist3 : R × R × R → R × R × R → R) :
    (get_graph wm dist3).edges = (get_graph wm dist3).edges ∧
      (get_graph wm dist3).nodes = (get_graph wm dist3).nodes :=
  ⟨rfl, rfl⟩

/-- Claim C9: `get_graph` is total, and when the distance between two cells'
positions is zero the slope test (whose IEEE quotient is non-finite there)
rejects the pair, so no zero-length edge is admitted and no panic occurs. -/
theorem c9_zero_distance_no_edge {R : Type} [LinearOrderedCommRing R]
    (wm : WorldMap R) (dist3 : R × R × R → R × R × R → R) (a b : ℕ) (w : R)
    (hzero : dist3 (wm.pos a) (wm.pos b) = 0) :
    (a, b, w) ∉ (get_graph wm dist3).edges := by
  intro hmem
  obtain ⟨_, _, hs, _⟩ := (mem_get_graph_iff wm dist3 a b w).1 hmem
  rw [hzero] at hs
  unfold slopeLtThreshold at hs
  simp at hs

theorem c9_zero_distance_no_edge_witness :
    (0, 1, (0 : ℤ)) ∉ (get_graph zWM zDist3).edges :=
  c9_zero_distance_no_edge zWM zDist3 0 1 0 rfl

/-- Claim C10: `a_star` is deterministic — as a pure function of graph,
world map, start and goal, two invocations with the same arguments are
equal — and ties in minimal `f` are broken by the open list's fixed
insertion order: `min_by` (as `minByF`) selects the head whenever it is at
least as small as every later element. -/
theorem c10_deterministic_first_min {R : Type} [LinearOrderedCommRing R]
    (start goal : ℕ) (G : NavGraph R) (wm : WorldMap R)
    (dist2 : R × R → R × R → R) :
    a_star start goal G wm dist2 = a_star start goal G wm dist2 ∧
      ∀ (n : AStarNode R) (l : List (AStarNode R)),
        (∀ m ∈ l, n.f ≤ m.f) → minByF (n :: l) = some n :=
  ⟨rfl, minByF_cons_of_min⟩

theorem c10_deterministic_first_min_witness :
    a_star 0 3 exG exWM exDist2 = a_star 0 3 exG exWM exDist2 ∧
      minByF [AStarNode.root 1 (0 : ℤ) 0, AStarNode.root 2 0 0] =
        some (AStarNode.root 1 0 0) :=
  ⟨(c10_deterministic_first_min 0 3 exG exWM exDist2).1,
    (c10_deterministic_first_min 0 3 exG exWM exDist2).2 (AStarNode.root 1 0 0)
      [AStarNode.root 2 0 0] (by decide)⟩

/-- Claim C7: for every cell `x`, querying `a_star` with start = goal = `x`
returns the single-element path `[x]`: the initial open list holds only the
start node, the first pop finds the goal, and the parent chain is the one
node. -/
theorem c7_self_query_single_path {R : Type} [LinearOrderedCommRing R]
    (x : ℕ) (G : NavGraph R) (wm : WorldMap R)
    (dist2 : R × R → R × R → R) :
    a_star x x G wm dist2 = some [x] := by
  unfold a_star
  show (a_starLoop _ _ _ _ (G.edges.length + 1 + 1) _ _).getD none = some [x]
  rw [a_starLoop]
  simp [minByF, AStarNode.cell_id, reconstruct_path]

/-- Claim C8: for every pre-normalization height `h` lying between the
map's minimum `m` and maximum `M`, the normalized height lies in [0, 1],
and it equals the sea-level split 0.5 exactly when `h` is zero — so the
`assert!((0.0..=1.0).contains(&height))` on `get_raw_height` in
`spawn_world` never fails. -/
theorem c8_normalized_height_unit_interval (m M h : ℚ) (hm : m ≤ h)
    (hM : h ≤ M) :
    0 ≤ normalizeHeight m M h ∧ normalizeHeight m M h ≤ 1 ∧
      (normalizeHeight m M h = 1 / 2 ↔ h = 0) := by
  unfold normalizeHeight
  by_cases h0 : h ≤ 0
  · rw [if_pos h0]
    by_cases hmneg : m < 0
    · rw [if_pos hmneg]
      have hd : (0 : ℚ) < -m := by linarith
      have hnum : (0 : ℚ) ≤ h - m := by linarith
      have hge : 0 ≤ (h - m) / (-m) := div_nonneg hnum (le_of_lt hd)
      have hratio : (h - m) / (-m) ≤ 1 := by
        rw [div_le_one hd]
        linarith
      refine ⟨by linarith, by linarith, ?_⟩
      constructor
      · intro heq
        have hone : (h - m) / (-m) = 1 := by linarith
        have := (div_eq_one_iff_eq (ne_of_gt hd)).1 hone
        linarith
      · intro heq
        rw [heq, zero_sub, div_self (ne_of_gt hd)]
        ring
    · rw [if_neg hmneg]
      have hm0 : (0 : ℚ) ≤ m := not_lt.1 hmneg
      have hh0 : h = 0 := le_antisymm h0 (le_trans hm0 hm)
      exact ⟨by norm_num, by norm_num, by simp [hh0]⟩
  · rw [if_neg h0]
    have hpos : (0 : ℚ) < h := lt_of_not_le h0
    have hMpos : (0 : ℚ) < M := lt_of_lt_of_le hpos hM
    rw [if_pos hMpos]
    have hub : h / M ≤ 1 := by
      rw [div_le_one hMpos]
      exact hM
    have hlb : 0 < h / M := div_pos hpos hMpos
    refine ⟨by linarith, by linarith, ?_⟩
    constructor
    · intro heq
      exfalso
      have : h / M = 0 := by linarith
      exact absurd this (ne_of_gt hlb)
    · intro heq
      exact absurd heq (ne_of_gt hpos)

theorem c8_normalized_height_unit_interval_witness :
    0 ≤ normalizeHeight (-1) 1 0 ∧ normalizeHeight (-1) 1 0 ≤ 1 ∧
      (normalizeHeight (-1) 1 0 = 1 / 2 ↔ (0 : ℚ) = 0) :=
  c8_normalized_height_unit_interval (-1) 1 0 (neg_nonpos.mpr zero_le_one)
    zero_le_one
